import Mathlib

/-!
Shallow embedding of `src/src/adaptors/multi_product.rs` (the `MultiProduct`
iterator adaptor of the itertools crate).

Rust iterators of a clonable element type are embedded as Lean lists holding
the elements still to be produced: `next` is head/tail, `clone` is copying the
list, `count` is `List.length`, `last` is `List.getLast?`.  Panics (`unwrap`
on an empty iterator, the `unreachable!` branch of `size_hint`) are made
observable: `advance` has an explicit `panicked` outcome and the fallible
operations return `Option`, `none` standing for a panic.
-/

/-- One slot of the product: the live iterator being consumed together with
the untouched original (`iter` and `iter_orig` in `MultiProductIter`). -/
structure MultiProductIter (α : Type) where
  iter : List α
  iter_orig : List α
deriving DecidableEq

/-- Internals for `MultiProduct` (`MultiProductInner` in the source):
the slots plus the current item of each iterator, `none` before the start. -/
structure MultiProductInner (α : Type) where
  iters : List (MultiProductIter α)
  cur : Option (List α)
deriving DecidableEq

/-- The outer type `MultiProduct` wraps the inner state in an `Option`;
`none` once the iterator has ended. -/
abbrev MultiProduct (α : Type) := Option (MultiProductInner α)

/-- Constructor `MultiProductIter::new`: both the live iterator and the origin start as
(clones of) the given iterator. -/
def MultiProductIter.new (l : List α) : MultiProductIter α := ⟨l, l⟩

/-- Constructor `multi_cartesian_product`: one slot per input iterator, `cur` unset. -/
def multi_cartesian_product (ls : List (List α)) : MultiProduct α :=
  some ⟨ls.map MultiProductIter.new, none⟩

/-- Rust `collect::<Option<Vec<_>>>()` on a sequence of options: `some` of the list
of values when every entry is `some`, otherwise `none`. -/
def collectOpt : List (Option β) → Option (List β)
  | [] => some []
  | none :: _ => none
  | some b :: os =>
    match collectOpt os with
    | some bs => some (b :: bs)
    | none => none

/-- Outcome of the reverse scan of the slots inside `MultiProduct::next`
(the `for (iter, item) in iters.zip(values).rev()` loop).  `found` returns the
updated slots and values after a successful draw, `carried` means the loop ran
to completion with every visited slot reset, `panicked` is the `unwrap`
failing on an empty `iter_orig`. -/
inductive AdvStep (α : Type) where
  | found (iters : List (MultiProductIter α)) (values : List α)
  | carried (iters : List (MultiProductIter α)) (values : List α)
  | panicked
deriving DecidableEq

/-- The reverse scan of `MultiProduct::next`: find, from the right, a
non-finished iterator, resetting the finished ones encountered.  The zipped
pairs are visited from the last towards the first, which the recursion mirrors
by processing the tail of both lists before the head; lists of unequal length
are truncated exactly as `zip` truncates. -/
def advance : List (MultiProductIter α) → List α → AdvStep α
  | [], vs => .carried [] vs
  | its, [] => .carried its []
  | it :: its, v :: vs =>
    match advance its vs with
    | .found its2 vs2 => .found (it :: its2) (v :: vs2)
    | .panicked => .panicked
    | .carried its2 vs2 =>
      match it.iter with
      | new :: rest => .found (⟨rest, it.iter_orig⟩ :: its2) (new :: vs2)
      | [] =>
        match it.iter_orig with
        | first :: rest => .carried (⟨rest, it.iter_orig⟩ :: its2) (first :: vs2)
        | [] => .panicked

/-- Method `MultiProduct::next`.  The result is `none` when the body panics
(the `unwrap` on a restarted but empty origin), otherwise `some` of the
produced item and the successor state. -/
def MultiProduct.next : MultiProduct α → Option (Option (List α) × MultiProduct α)
  | none => some (none, none)
  | some inner =>
    match inner.cur with
    | some values =>
      match advance inner.iters values with
      | .found its vs => some (some vs, some ⟨its, some vs⟩)
      | .carried _ _ => some (none, none)
      | .panicked => none
    | none =>
      match collectOpt (inner.iters.map (fun i => i.iter.head?)) with
      | none => some (none, none)
      | some vals =>
        if inner.iters.isEmpty then some (some vals, none)
        else
          some (some vals,
            some ⟨inner.iters.map (fun i => ⟨i.iter.tail, i.iter_orig⟩), some vals⟩)

/-- Rust `try_fold` over an `Option`-valued step function:
fold from the left, stopping at the first `none`. -/
def tryFold (f : β → γ → Option β) : β → List γ → Option β
  | b, [] => some b
  | b, x :: xs =>
    match f b x with
    | none => none
    | some b2 => tryFold f b2 xs

/-- Method `MultiProduct::count`. -/
def MultiProduct.count : MultiProduct α → Nat
  | none => 0
  | some ⟨iters, cur⟩ =>
    match cur with
    | none =>
      match tryFold
          (fun product it =>
            if it.iter_orig.length = 0 then none
            else some (product * it.iter_orig.length))
          1 iters with
      | none => 0
      | some p => p
    | some _ =>
      iters.foldl
        (fun acc it =>
          (if acc ≠ 0 then acc * it.iter_orig.length else acc) + it.iter.length)
        0

/-- Modelled from the spec: the crate's `size_hint::mul` helper (the
`size_hint` module is not among the provided sources); multiplies two
lower/optional-upper bound pairs componentwise. -/
def SizeHint.mul (a b : Nat × Option Nat) : Nat × Option Nat :=
  (a.1 * b.1,
    match a.2, b.2 with
    | some x, some y => some (x * y)
    | _, _ => none)

/-- Modelled from the spec: the crate's `size_hint::add` helper (the
`size_hint` module is not among the provided sources); adds two
lower/optional-upper bound pairs componentwise. -/
def SizeHint.add (a b : Nat × Option Nat) : Nat × Option Nat :=
  (a.1 + b.1,
    match a.2, b.2 with
    | some x, some y => some (x + y)
    | _, _ => none)

/-- Method `MultiProduct::size_hint`, parameterised by the size hint `hint` of the
underlying iterators (any bracketing estimate a Rust iterator may report).
The result is `none` when the `unreachable!` branch (started product with no
slots) is hit. -/
def MultiProduct.sizeHint (hint : List α → Nat × Option Nat) :
    MultiProduct α → Option (Nat × Option Nat)
  | none => some (0, some 0)
  | some ⟨iters, cur⟩ =>
    match cur with
    | none =>
      some ((iters.map (fun it => hint it.iter_orig)).foldl SizeHint.mul (1, some 1))
    | some _ =>
      match iters with
      | [] => none
      | first :: tail =>
        some (tail.foldl
          (fun sh it => SizeHint.add (SizeHint.mul sh (hint it.iter_orig)) (hint it.iter))
          (hint first.iter))

/-- Method `MultiProduct::last`. -/
def MultiProduct.last : MultiProduct α → Option (List α)
  | none => none
  | some ⟨iters, cur⟩ =>
    match cur with
    | some values =>
      let pairs := iters.zip values
      let lastVals := pairs.map (fun p => (p.1.iter.getLast?).getD p.2)
      let cnt := iters.length - pairs.countP (fun p => p.1.iter.getLast?.isNone)
      if cnt = 0 then none else some lastVals
    | none => collectOpt (iters.map (fun i => i.iter.getLast?))

/-- Driving the iterator: `run n s` performs `n` calls to `next`, collecting
the produced items; `none` when any call panics. -/
def MultiProduct.run : Nat → MultiProduct α → Option (List (List α) × MultiProduct α)
  | 0, s => some ([], s)
  | n + 1, s =>
    match MultiProduct.next s with
    | none => none
    | some (o, s2) =>
      match MultiProduct.run n s2 with
      | none => none
      | some (outs, s3) => some (o.toList ++ outs, s3)

/-- Reference nested-loop cartesian product, last input fastest-varying. -/
def cartesian : List (List α) → List (List α)
  | [] => [[]]
  | l :: ls => l.flatMap (fun x => (cartesian ls).map (x :: ·))

/-! ## Proof-side abstractions -/

/-- The origin iterator of every slot. -/
def origins (iters : List (MultiProductIter α)) : List (List α) :=
  iters.map MultiProductIter.iter_orig

/-- Per-slot invariant of a started product: the origin consists of an
already-consumed prefix, then the current value, then the live iterator. -/
def SlotInv (it : MultiProductIter α) (v : α) : Prop :=
  ∃ pre, it.iter_orig = pre ++ v :: it.iter

/-- The outputs still to come from a started product whose slots are `iters`
and whose most recently produced tuple is `vs`. -/
def remAfter : List (MultiProductIter α) → List α → List (List α)
  | [], _ => []
  | _, [] => []
  | it :: its, v :: vs =>
    (remAfter its vs).map (v :: ·) ++
      it.iter.flatMap (fun x => (cartesian (origins its)).map (x :: ·))

theorem origins_nil : origins ([] : List (MultiProductIter α)) = [] := rfl

theorem origins_cons (it : MultiProductIter α) (its : List (MultiProductIter α)) :
    origins (it :: its) = it.iter_orig :: origins its := rfl

theorem remAfter_cons (it : MultiProductIter α) (its : List (MultiProductIter α))
    (v : α) (vs : List α) :
    remAfter (it :: its) (v :: vs) =
      (remAfter its vs).map (v :: ·) ++
        it.iter.flatMap (fun x => (cartesian (origins its)).map (x :: ·)) := rfl

theorem cartesian_length (ls : List (List α)) :
    (cartesian ls).length = (ls.map List.length).prod := by
  induction ls with
  | nil => rfl
  | cons l ls ih =>
    simp only [cartesian, List.length_flatMap, List.map_cons, List.prod_cons,
      Function.comp_def, List.length_map]
    rw [List.map_const', List.sum_replicate, smul_eq_mul, ih, Nat.mul_comm]

theorem cartesian_eq_nil_iff (ls : List (List α)) : cartesian ls = [] ↔ [] ∈ ls := by
  rw [← List.length_eq_zero, cartesian_length, List.prod_eq_zero_iff]
  constructor
  · intro h
    rcases List.mem_map.mp h with ⟨l, hl, hlen⟩
    have hnil : l = [] := List.length_eq_zero.mp hlen
    exact hnil ▸ hl
  · intro h
    exact List.mem_map.mpr ⟨[], h, rfl⟩

theorem collectOpt_map_eq_none_iff (f : β → Option γ) (xs : List β) :
    collectOpt (xs.map f) = none ↔ ∃ x ∈ xs, f x = none := by
  induction xs with
  | nil => simp [collectOpt]
  | cons x xs ih =>
    cases hfx : f x with
    | none =>
      simp only [List.map_cons, hfx, collectOpt]
      exact ⟨fun _ => ⟨x, List.mem_cons_self x xs, hfx⟩, fun _ => trivial⟩
    | some b =>
      cases hrest : collectOpt (xs.map f) with
      | none =>
        simp only [List.map_cons, hfx, collectOpt, hrest]
        constructor
        · intro _
          rcases ih.mp hrest with ⟨y, hy, hfy⟩
          exact ⟨y, List.mem_cons_of_mem x hy, hfy⟩
        · intro _
          trivial
      | some bs =>
        simp only [List.map_cons, hfx, collectOpt, hrest]
        constructor
        · intro h
          exact Option.noConfusion h
        · rintro ⟨y, hy, hfy⟩
          rcases List.mem_cons.mp hy with rfl | hy
          · rw [hfx] at hfy
            exact Option.noConfusion hfy
          · rw [ih.mpr ⟨y, hy, hfy⟩] at hrest
            exact Option.noConfusion hrest

theorem collectOpt_map_eq_some (f : β → Option γ) (xs : List β) (ys : List γ)
    (h : collectOpt (xs.map f) = some ys) :
    List.Forall₂ (fun x y => f x = some y) xs ys := by
  induction xs generalizing ys with
  | nil =>
    simp only [List.map_nil, collectOpt] at h
    cases h
    exact .nil
  | cons x xs ih =>
    cases hfx : f x with
    | none =>
      simp only [List.map_cons, hfx, collectOpt] at h
      exact Option.noConfusion h
    | some b =>
      simp only [List.map_cons, hfx, collectOpt] at h
      cases hrest : collectOpt (xs.map f) with
      | none =>
        rw [hrest] at h
        exact Option.noConfusion h
      | some bs =>
        rw [hrest] at h
        simp only [Option.some.injEq] at h
        cases h
        exact .cons hfx (ih bs hrest)

theorem collectOpt_map_eq_some_of_forall₂ (f : β → Option γ) (xs : List β) (ys : List γ)
    (h : List.Forall₂ (fun x y => f x = some y) xs ys) :
    collectOpt (xs.map f) = some ys := by
  induction h with
  | nil => rfl
  | cons hxy htail ih => simp [collectOpt, hxy, ih]

/-- The reverse scan of `next` on a started, invariant-respecting state:
either it finds a slot to advance — the produced tuple is the head of the
pending outputs and the invariant is maintained — or every slot carries, in
which case no outputs were pending, and the (discarded) reset state would
restart the whole product.  In particular the scan never panics. -/
theorem advance_spec {iters : List (MultiProductIter α)} {vs : List α}
    (h : List.Forall₂ SlotInv iters vs) :
    (∃ its2 vs2, advance iters vs = .found its2 vs2 ∧
      List.Forall₂ SlotInv its2 vs2 ∧ origins its2 = origins iters ∧
      remAfter iters vs = vs2 :: remAfter its2 vs2) ∨
    (∃ its2 vs2, advance iters vs = .carried its2 vs2 ∧
      List.Forall₂ SlotInv its2 vs2 ∧ origins its2 = origins iters ∧
      remAfter iters vs = [] ∧
      cartesian (origins iters) = vs2 :: remAfter its2 vs2) := by
  induction h with
  | nil =>
    right
    exact ⟨[], [], rfl, .nil, rfl, rfl, rfl⟩
  | @cons it v its vs hslot htail ih =>
    rcases ih with ⟨its2, vs2, hadv, hinv, horig, hrem⟩ |
      ⟨its2, vs2, hadv, hinv, horig, hremnil, hcart⟩
    · left
      refine ⟨it :: its2, v :: vs2, ?_, .cons hslot hinv, ?_, ?_⟩
      · simp only [advance, hadv]
      · simp [origins_cons, horig]
      · rw [remAfter_cons, hrem, remAfter_cons, horig]
        simp
    · cases hiter : it.iter with
      | cons new rest =>
        left
        refine ⟨⟨rest, it.iter_orig⟩ :: its2, new :: vs2, ?_, ?_, ?_, ?_⟩
        · simp only [advance, hadv, hiter]
        · refine .cons ?_ hinv
          rcases hslot with ⟨pre, hpre⟩
          exact ⟨pre ++ [v], by simp [hpre, hiter]⟩
        · simp [origins_cons, horig]
        · rw [remAfter_cons, hremnil, remAfter_cons, hiter, horig, hcart]
          simp [List.flatMap_cons]
      | nil =>
        rcases hslot with ⟨pre, hpre⟩
        cases horigit : it.iter_orig with
        | nil =>
          rw [horigit] at hpre
          simp at hpre
        | cons first rest =>
          right
          refine ⟨⟨rest, it.iter_orig⟩ :: its2, first :: vs2, ?_, ?_, ?_, ?_, ?_⟩
          · simp only [advance, hadv, hiter, horigit]
          · refine .cons ⟨[], by simp [horigit]⟩ hinv
          · simp [origins_cons, horig]
          · rw [remAfter_cons, hremnil, hiter]
            simp
          · rw [origins_cons, cartesian, remAfter_cons, horigit, List.flatMap_cons, horig, hcart]
            simp [horigit]

theorem origins_start (ls : List (List α)) :
    origins (ls.map fun l => (⟨l.tail, l⟩ : MultiProductIter α)) = ls := by
  simp [origins, List.map_map, Function.comp_def]

theorem origins_new (ls : List (List α)) :
    origins (ls.map MultiProductIter.new) = ls := by
  simp [origins, List.map_map, Function.comp_def, MultiProductIter.new]

/-- Drawing the first element of every input turns the full product into the
head tuple followed by the pending outputs of the freshly started state. -/
theorem cartesian_head_rem (ls : List (List α)) (hs : List α)
    (h : List.Forall₂ (fun l v => l.head? = some v) ls hs) :
    cartesian ls = hs :: remAfter (ls.map fun l => (⟨l.tail, l⟩ : MultiProductIter α)) hs := by
  induction h with
  | nil => rfl
  | @cons l v ls hs hhead htail ih =>
    have hl : l = v :: l.tail := by
      cases l with
      | nil => simp at hhead
      | cons a as =>
        simp only [List.head?_cons, Option.some.injEq] at hhead
        simp [hhead]
    rw [List.map_cons, remAfter_cons, cartesian, origins_start]
    conv_lhs => rw [hl, List.flatMap_cons]
    rw [ih]
    simp

/-- Valid states of the combinator paired with the outputs still pending:
ended, fresh, or started with the slot invariant holding. -/
def OKState (ls : List (List α)) (s : MultiProduct α) (rem : List (List α)) : Prop :=
  (s = none ∧ rem = []) ∨
  (s = multi_cartesian_product ls ∧ rem = cartesian ls) ∨
  (∃ iters vs, s = some ⟨iters, some vs⟩ ∧ iters ≠ [] ∧
    List.Forall₂ SlotInv iters vs ∧ origins iters = ls ∧ rem = remAfter iters vs)

/-- One call to `next` from a valid state: if no output is pending the call
returns `none` and ends the iterator, otherwise it returns the head pending
output and moves to a valid state with the tail pending. -/
theorem next_ok {ls : List (List α)} {s : MultiProduct α} {rem : List (List α)}
    (h : OKState ls s rem) :
    (rem = [] ∧ MultiProduct.next s = some (none, none)) ∨
    (∃ w ws s2, rem = w :: ws ∧ MultiProduct.next s = some (some w, s2) ∧
      OKState ls s2 ws) := by
  rcases h with ⟨rfl, rfl⟩ | ⟨rfl, rfl⟩ | ⟨iters, vs, rfl, hne, hinv, horig, rfl⟩
  · exact Or.inl ⟨rfl, rfl⟩
  · have hmaps : (ls.map MultiProductIter.new).map (fun i => i.iter.head?) =
        ls.map List.head? := by
      simp [List.map_map, Function.comp, MultiProductIter.new]
    cases hcoll : collectOpt (ls.map List.head?) with
    | none =>
      left
      constructor
      · rw [cartesian_eq_nil_iff]
        rcases (collectOpt_map_eq_none_iff _ _).mp hcoll with ⟨l, hl, hlnone⟩
        cases l with
        | nil => exact hl
        | cons a as => simp at hlnone
      · simp only [multi_cartesian_product, MultiProduct.next, hmaps, hcoll]
    | some hs =>
      have hfa : List.Forall₂ (fun l v => l.head? = some v) ls hs :=
        collectOpt_map_eq_some _ _ _ hcoll
      cases ls with
      | nil =>
        cases hfa
        right
        exact ⟨[], [], none,
          rfl, by simp only [multi_cartesian_product, MultiProduct.next, hmaps, hcoll]; rfl,
          Or.inl ⟨rfl, rfl⟩⟩
      | cons l ls2 =>
        right
        have hmaps2 : ((l :: ls2).map MultiProductIter.new).map
            (fun i => (⟨i.iter.tail, i.iter_orig⟩ : MultiProductIter α)) =
            (l :: ls2).map fun l => (⟨l.tail, l⟩ : MultiProductIter α) := by
          simp [List.map_map, Function.comp, MultiProductIter.new]
        refine ⟨hs, remAfter ((l :: ls2).map fun l => (⟨l.tail, l⟩ : MultiProductIter α)) hs,
          some ⟨(l :: ls2).map fun l => (⟨l.tail, l⟩ : MultiProductIter α), some hs⟩,
          cartesian_head_rem _ _ hfa, ?_, ?_⟩
        · simp only [multi_cartesian_product, MultiProduct.next, hmaps, hcoll, hmaps2]
          rfl
        · right; right
          refine ⟨_, hs, rfl, by simp, ?_, origins_start _, rfl⟩
          rw [List.forall₂_map_left_iff]
          refine hfa.imp ?_
          intro a b hab
          have ha : a = b :: a.tail := by
            cases a with
            | nil => simp at hab
            | cons x xs =>
              simp only [List.head?_cons, Option.some.injEq] at hab
              simp [hab]
          exact ⟨[], by simpa using ha⟩
  · rcases advance_spec hinv with ⟨its2, vs2, hadv, hinv2, horig2, hrem⟩ |
      ⟨its2, vs2, hadv, hinv2, horig2, hremnil, hcart⟩
    · right
      refine ⟨vs2, remAfter its2 vs2, some ⟨its2, some vs2⟩, hrem, ?_, ?_⟩
      · simp only [MultiProduct.next, hadv]
      · right; right
        refine ⟨its2, vs2, rfl, ?_, hinv2, horig2.trans horig, rfl⟩
        intro hnil
        rw [hnil] at horig2
        exact hne (by simpa [origins] using horig2.symm)
    · left
      exact ⟨hremnil, by simp only [MultiProduct.next, hadv]⟩

theorem run_none (k : Nat) :
    MultiProduct.run k (none : MultiProduct α) = some ([], none) := by
  induction k with
  | zero => rfl
  | succ k ih => simp [MultiProduct.run, MultiProduct.next, ih]

/-- Running `k` calls to `next` from a valid state produce the first `k` pending
outputs, leave a valid state with the rest pending, never panic, and end the
iterator as soon as the pending outputs are out. -/
theorem run_ok {ls : List (List α)} (k : Nat) {s : MultiProduct α} {rem : List (List α)}
    (h : OKState ls s rem) :
    ∃ s2, MultiProduct.run k s = some (rem.take k, s2) ∧ OKState ls s2 (rem.drop k) ∧
      (rem.length < k → s2 = none) := by
  induction k generalizing s rem with
  | zero => exact ⟨s, rfl, h, fun hlt => absurd hlt (Nat.not_lt_zero _)⟩
  | succ k ih =>
    rcases next_ok h with ⟨hrem, hnext⟩ | ⟨w, ws, s2, hrem, hnext, hok⟩
    · subst hrem
      refine ⟨none, ?_, Or.inl ⟨rfl, rfl⟩, fun _ => rfl⟩
      simp [MultiProduct.run, hnext, run_none]
    · subst hrem
      rcases ih hok with ⟨s3, hrun, hok3, hend⟩
      refine ⟨s3, ?_, by simpa using hok3, ?_⟩
      · simp [MultiProduct.run, hnext, hrun]
      · intro hlt
        exact hend (by simpa using hlt)

theorem tryFold_count (iters : List (MultiProductIter α)) : ∀ init : Nat,
    (tryFold (fun product it =>
        if it.iter_orig.length = 0 then none
        else some (product * it.iter_orig.length)) init iters).getD 0 =
      init * ((origins iters).map List.length).prod := by
  induction iters with
  | nil =>
    intro init
    simp [tryFold, origins]
  | cons it its ih =>
    intro init
    by_cases h : it.iter_orig.length = 0
    · simp [tryFold, h, origins_cons]
    · simp only [tryFold, h, if_neg, if_false, origins_cons, List.map_cons, List.prod_cons,
        not_false_iff]
      rw [ih (init * it.iter_orig.length), Nat.mul_assoc]

/-- The fresh-state branch of `count` computes the length of the full
product. -/
theorem count_fresh (ls : List (List α)) :
    MultiProduct.count (multi_cartesian_product ls) = (cartesian ls).length := by
  have h := tryFold_count (ls.map MultiProductIter.new) 1
  rw [origins_new, Nat.one_mul] at h
  rw [cartesian_length, ← h]
  simp only [multi_cartesian_product, MultiProduct.count]
  cases tryFold (fun product it =>
      if it.iter_orig.length = 0 then none
      else some (product * it.iter_orig.length)) 1 (ls.map MultiProductIter.new) with
  | none => rfl
  | some p => rfl

theorem foldl_horner {iters : List (MultiProductIter α)} {vs : List α}
    (h : List.Forall₂ SlotInv iters vs) : ∀ acc : Nat,
    iters.foldl (fun acc it => acc * it.iter_orig.length + it.iter.length) acc =
      acc * ((origins iters).map List.length).prod + (remAfter iters vs).length := by
  induction h with
  | nil =>
    intro acc
    simp [origins, remAfter]
  | @cons it v its vs hslot htail ih =>
    intro acc
    simp only [List.foldl_cons]
    rw [ih, remAfter_cons]
    simp only [origins_cons, List.map_cons, List.prod_cons, List.length_append,
      List.length_map, List.length_flatMap]
    have hsum : (List.map (List.length ∘ fun x => (cartesian (origins its)).map (x :: ·))
        it.iter).sum = it.iter.length * ((origins its).map List.length).prod := by
      simp only [Function.comp_def, List.length_map]
      rw [List.map_const', List.sum_replicate, smul_eq_mul, cartesian_length]
    rw [hsum]
    ring

/-- The started-state branch of `count` computes the number of pending
outputs. -/
theorem count_started {iters : List (MultiProductIter α)} {vs : List α}
    (h : List.Forall₂ SlotInv iters vs) :
    MultiProduct.count (some ⟨iters, some vs⟩ : MultiProduct α) =
      (remAfter iters vs).length := by
  simp only [MultiProduct.count]
  rw [List.foldl_ext _ (fun acc it => acc * it.iter_orig.length + it.iter.length) 0
    (by
      intro acc it _
      by_cases hacc : acc = 0
      · simp [hacc]
      · simp [hacc])]
  rw [foldl_horner h 0, Nat.zero_mul, Nat.zero_add]

theorem forall₂_mem_left {R : β → γ → Prop} {l1 : List β} {l2 : List γ}
    (h : List.Forall₂ R l1 l2) {a : β} (ha : a ∈ l1) : ∃ b, R a b := by
  induction h with
  | nil => cases ha
  | cons hR htail ih =>
    rcases List.mem_cons.mp ha with rfl | ha2
    · exact ⟨_, hR⟩
    · exact ih ha2

theorem origins_ne_nil {iters : List (MultiProductIter α)} {vs : List α}
    (h : List.Forall₂ SlotInv iters vs) : [] ∉ origins iters := by
  intro hmem
  rcases List.mem_map.mp hmem with ⟨it2, hit2, hit2eq⟩
  rcases forall₂_mem_left h hit2 with ⟨v2, pre, hpre⟩
  rw [hpre] at hit2eq
  simp at hit2eq

theorem getLast?_flatMap_map (l : List α) (C : List (List α)) :
    (l.flatMap (fun x => C.map (x :: ·))).getLast? =
      l.getLast?.bind (fun x => C.getLast?.map (x :: ·)) := by
  cases hC : C with
  | nil =>
    simp only [List.map_nil]
    rw [List.flatMap_eq_nil_iff.mpr (fun _ _ => rfl)]
    cases l.getLast? <;> rfl
  | cons c cs =>
    induction l with
    | nil => rfl
    | cons x xs ih =>
      rw [List.flatMap_cons]
      cases xs with
      | nil =>
        rw [List.flatMap_nil, List.append_nil, List.getLast?_map]
        simp
      | cons y ys =>
        rw [List.getLast?_append, ih, List.getLast?_cons_cons]
        rcases hw : (y :: ys).getLast? with _ | w
        · exact absurd (List.getLast?_eq_none_iff.mp hw) (by simp)
        · rcases hu : (c :: cs).getLast? with _ | u
          · exact absurd (List.getLast?_eq_none_iff.mp hu) (by simp)
          · simp [hw, hu]

theorem cartesian_getLast? (ls : List (List α)) :
    (cartesian ls).getLast? = collectOpt (ls.map List.getLast?) := by
  induction ls with
  | nil => rfl
  | cons l ls ih =>
    rw [cartesian, getLast?_flatMap_map, List.map_cons]
    simp only [ih]
    cases hl : l.getLast? with
    | none => simp [collectOpt, hl]
    | some x =>
      cases hc : collectOpt (ls.map List.getLast?) with
      | none => simp [collectOpt, hl, hc]
      | some c => simp [collectOpt, hl, hc]

/-- Joint facts about the started-state branch of `last`: the drained-slot
count reaches the slot count exactly when no output is pending, and the
per-slot fallback values assemble the last tuple of the whole product. -/
theorem last_aux {iters : List (MultiProductIter α)} {vs : List α}
    (h : List.Forall₂ SlotInv iters vs) :
    ((iters.zip vs).countP (fun p => p.1.iter.getLast?.isNone) = iters.length ↔
      remAfter iters vs = []) ∧
    collectOpt ((origins iters).map List.getLast?) =
      some ((iters.zip vs).map (fun p => (p.1.iter.getLast?).getD p.2)) := by
  induction h with
  | nil => exact ⟨by simp [remAfter], rfl⟩
  | @cons it v its vs hslot htail ih =>
    obtain ⟨ih1, ih2⟩ := ih
    have hcle : (its.zip vs).countP (fun p => p.1.iter.getLast?.isNone) ≤ its.length := by
      calc (its.zip vs).countP (fun p => p.1.iter.getLast?.isNone)
          ≤ (its.zip vs).length := List.countP_le_length _
        _ = its.length := by rw [List.length_zip, htail.length_eq, Nat.min_self]
    have hC : cartesian (origins its) ≠ [] := by
      rw [Ne, cartesian_eq_nil_iff]
      exact origins_ne_nil htail
    constructor
    · rw [List.zip_cons_cons, List.countP_cons, remAfter_cons, List.length_cons]
      cases hiter : it.iter with
      | nil =>
        simp [hiter, ih1]
      | cons a as =>
        have hfalse : ((a :: as).getLast?).isNone = false := by
          rcases hx : (a :: as).getLast? with _ | w
          · exact absurd (List.getLast?_eq_none_iff.mp hx) (by simp)
          · rfl
        refine iff_of_false (by simp [hfalse]; omega) ?_
        intro hnil
        rcases List.append_eq_nil.mp hnil with ⟨-, hflat⟩
        rw [List.flatMap_cons] at hflat
        rcases List.append_eq_nil.mp hflat with ⟨hmapnil, -⟩
        exact hC (List.map_eq_nil_iff.mp hmapnil)
    · rw [origins_cons, List.map_cons, List.zip_cons_cons, List.map_cons]
      rcases hslot with ⟨pre, hpre⟩
      have horiglast : it.iter_orig.getLast? = some ((it.iter.getLast?).getD v) := by
        cases hiter : it.iter with
        | nil =>
          rw [hpre, hiter, List.getLast?_append]
          simp
        | cons a as =>
          rw [hpre, hiter, List.getLast?_append]
          rcases hx : (a :: as).getLast? with _ | w
          · exact absurd (List.getLast?_eq_none_iff.mp hx) (by simp)
          · simp [List.getLast?_cons_cons, hx]
      rw [horiglast]
      simp [collectOpt, ih2]

/-- The started-state branch of `last`: `none` exactly when the most recent
tuple was the final one, otherwise the last tuple of the full product. -/
theorem last_started {iters : List (MultiProductIter α)} {vs : List α}
    (h : List.Forall₂ SlotInv iters vs) :
    (remAfter iters vs = [] →
      MultiProduct.last (some ⟨iters, some vs⟩ : MultiProduct α) = none) ∧
    (remAfter iters vs ≠ [] →
      MultiProduct.last (some ⟨iters, some vs⟩ : MultiProduct α) =
        (cartesian (origins iters)).getLast?) := by
  obtain ⟨haux1, haux2⟩ := last_aux h
  have hcle : (iters.zip vs).countP (fun p => p.1.iter.getLast?.isNone) ≤ iters.length := by
    calc (iters.zip vs).countP (fun p => p.1.iter.getLast?.isNone)
        ≤ (iters.zip vs).length := List.countP_le_length _
      _ = iters.length := by rw [List.length_zip, h.length_eq, Nat.min_self]
  constructor
  · intro hrem
    have hcnt := haux1.mpr hrem
    simp only [MultiProduct.last]
    simp [hcnt]
  · intro hrem
    have hcnt : (iters.zip vs).countP (fun p => p.1.iter.getLast?.isNone) ≠ iters.length :=
      fun hc => hrem (haux1.mp hc)
    simp only [MultiProduct.last]
    rw [if_neg (by omega :
      ¬(iters.length - (iters.zip vs).countP (fun p => p.1.iter.getLast?.isNone) = 0))]
    rw [cartesian_getLast?, haux2]

/-- The fresh-state branch of `last` collects the last element of every
input, which is the last tuple of the full product. -/
theorem last_fresh (ls : List (List α)) :
    MultiProduct.last (multi_cartesian_product ls) = (cartesian ls).getLast? := by
  rw [cartesian_getLast?]
  simp only [multi_cartesian_product, MultiProduct.last]
  congr 1
  simp [List.map_map, Function.comp_def, MultiProductIter.new]

/-- Predicate: `sh` is a valid lower/optional-upper bound pair for the quantity `n`. -/
def Brackets (sh : Nat × Option Nat) (n : Nat) : Prop :=
  sh.1 ≤ n ∧ ∀ u, sh.2 = some u → n ≤ u

/-- Every input iterator reports a size hint bracketing its true length. -/
def HintOK (hint : List α → Nat × Option Nat) : Prop :=
  ∀ l, Brackets (hint l) l.length

theorem Brackets.mul {a b : Nat × Option Nat} {x y : Nat}
    (ha : Brackets a x) (hb : Brackets b y) : Brackets (SizeHint.mul a b) (x * y) := by
  obtain ⟨hal, hau⟩ := ha
  obtain ⟨hbl, hbu⟩ := hb
  refine ⟨Nat.mul_le_mul hal hbl, ?_⟩
  intro u hu
  rcases hA : a.2 with _ | ua <;> rcases hB : b.2 with _ | ub <;>
    simp [SizeHint.mul, hA, hB] at hu
  rw [← hu]
  exact Nat.mul_le_mul (hau ua hA) (hbu ub hB)

theorem Brackets.add {a b : Nat × Option Nat} {x y : Nat}
    (ha : Brackets a x) (hb : Brackets b y) : Brackets (SizeHint.add a b) (x + y) := by
  obtain ⟨hal, hau⟩ := ha
  obtain ⟨hbl, hbu⟩ := hb
  refine ⟨Nat.add_le_add hal hbl, ?_⟩
  intro u hu
  rcases hA : a.2 with _ | ua <;> rcases hB : b.2 with _ | ub <;>
    simp [SizeHint.add, hA, hB] at hu
  rw [← hu]
  exact Nat.add_le_add (hau ua hA) (hbu ub hB)

theorem brackets_foldl_mul (hint : List α → Nat × Option Nat) (hh : HintOK hint)
    (ls : List (List α)) : ∀ acc n, Brackets acc n →
    Brackets ((ls.map hint).foldl SizeHint.mul acc) (n * (ls.map List.length).prod) := by
  induction ls with
  | nil =>
    intro acc n h
    simpa using h
  | cons l ls ih =>
    intro acc n h
    simp only [List.map_cons, List.foldl_cons, List.prod_cons]
    rw [← Nat.mul_assoc]
    exact ih (SizeHint.mul acc (hint l)) (n * l.length) (h.mul (hh l))

theorem remAfter_cons_length (it : MultiProductIter α) (its : List (MultiProductIter α))
    (v : α) (vs : List α) :
    (remAfter (it :: its) (v :: vs)).length =
      (remAfter its vs).length + it.iter.length * ((origins its).map List.length).prod := by
  rw [remAfter_cons]
  simp only [List.length_append, List.length_map, List.length_flatMap]
  have hsum : (List.map (List.length ∘ fun x => (cartesian (origins its)).map (x :: ·))
      it.iter).sum = it.iter.length * ((origins its).map List.length).prod := by
    simp only [Function.comp_def, List.length_map]
    rw [List.map_const', List.sum_replicate, smul_eq_mul, cartesian_length]
  rw [hsum]

theorem brackets_foldl_addmul (hint : List α → Nat × Option Nat) (hh : HintOK hint)
    {iters : List (MultiProductIter α)} {vs : List α}
    (h : List.Forall₂ SlotInv iters vs) : ∀ sh n, Brackets sh n →
    Brackets
      (iters.foldl
        (fun sh it => SizeHint.add (SizeHint.mul sh (hint it.iter_orig)) (hint it.iter)) sh)
      (iters.foldl (fun acc it => acc * it.iter_orig.length + it.iter.length) n) := by
  induction h with
  | nil =>
    intro sh n hb
    simpa using hb
  | cons hslot htail ih =>
    intro sh n hb
    simp only [List.foldl_cons]
    exact ih _ _ ((hb.mul (hh _)).add (hh _))

/-- The fresh-state branch of `size_hint` brackets the full product length. -/
theorem sizeHint_fresh (hint : List α → Nat × Option Nat) (hh : HintOK hint)
    (ls : List (List α)) :
    ∃ r, MultiProduct.sizeHint hint (multi_cartesian_product ls) = some r ∧
      Brackets r (cartesian ls).length := by
  simp only [multi_cartesian_product, MultiProduct.sizeHint]
  refine ⟨_, rfl, ?_⟩
  have hmaps : (ls.map MultiProductIter.new).map (fun it => hint it.iter_orig) =
      ls.map hint := by
    simp [List.map_map, Function.comp_def, MultiProductIter.new]
  rw [hmaps, cartesian_length]
  have hone : Brackets ((1 : Nat), some 1) 1 := by
    refine ⟨Nat.le_refl 1, ?_⟩
    intro u hu
    cases hu
    exact Nat.le_refl 1
  simpa using brackets_foldl_mul hint hh ls (1, some 1) 1 hone

/-- The started-state branch of `size_hint` brackets the number of pending
outputs. -/
theorem sizeHint_started (hint : List α → Nat × Option Nat) (hh : HintOK hint)
    {iters : List (MultiProductIter α)} {vs : List α}
    (h : List.Forall₂ SlotInv iters vs) (hne : iters ≠ []) :
    ∃ r, MultiProduct.sizeHint hint (some ⟨iters, some vs⟩ : MultiProduct α) = some r ∧
      Brackets r (remAfter iters vs).length := by
  cases h with
  | nil => exact absurd rfl hne
  | @cons first v tail vs2 hslot htail =>
    simp only [MultiProduct.sizeHint]
    refine ⟨_, rfl, ?_⟩
    have hlen : (remAfter (first :: tail) (v :: vs2)).length =
        tail.foldl (fun acc it => acc * it.iter_orig.length + it.iter.length)
          first.iter.length := by
      rw [remAfter_cons_length, foldl_horner htail first.iter.length, Nat.add_comm]
    rw [hlen]
    exact brackets_foldl_addmul hint hh htail (hint first.iter) first.iter.length (hh _)

/-- The reverse scan never touches any slot's `iter_orig`: whether it finds a
slot to advance or carries the whole way, the origins are unchanged.  This
holds for arbitrary states, not only reachable ones. -/
theorem advance_origins (iters : List (MultiProductIter α)) : ∀ vs : List α,
    (∀ its2 vs2, advance iters vs = .found its2 vs2 → origins its2 = origins iters) ∧
    (∀ its2 vs2, advance iters vs = .carried its2 vs2 → origins its2 = origins iters) := by
  induction iters with
  | nil =>
    intro vs
    constructor
    · intro its2 vs2 h
      simp [advance] at h
    · intro its2 vs2 h
      simp only [advance, AdvStep.carried.injEq] at h
      rw [← h.1]
  | cons it its ih =>
    intro vs
    cases vs with
    | nil =>
      constructor
      · intro its2 vs2 h
        simp [advance] at h
      · intro its2 vs2 h
        simp only [advance, AdvStep.carried.injEq] at h
        rw [← h.1]
    | cons v vs =>
      obtain ⟨ihf, ihc⟩ := ih vs
      constructor
      · intro its2 vs2 h
        simp only [advance] at h
        cases hadv : advance its vs with
        | found a b =>
          rw [hadv] at h
          simp only [AdvStep.found.injEq] at h
          rw [← h.1, origins_cons, origins_cons, ihf a b hadv]
        | panicked =>
          rw [hadv] at h
          cases h
        | carried a b =>
          rw [hadv] at h
          cases hiter : it.iter with
          | cons new rest =>
            rw [hiter] at h
            simp only [AdvStep.found.injEq] at h
            rw [← h.1, origins_cons, origins_cons, ihc a b hadv]
          | nil =>
            rw [hiter] at h
            cases horig : it.iter_orig with
            | cons f r =>
              rw [horig] at h
              cases h
            | nil =>
              rw [horig] at h
              cases h
      · intro its2 vs2 h
        simp only [advance] at h
        cases hadv : advance its vs with
        | found a b =>
          rw [hadv] at h
          cases h
        | panicked =>
          rw [hadv] at h
          cases h
        | carried a b =>
          rw [hadv] at h
          cases hiter : it.iter with
          | cons new rest =>
            rw [hiter] at h
            cases h
          | nil =>
            rw [hiter] at h
            cases horig : it.iter_orig with
            | cons f r =>
              rw [horig] at h
              simp only [AdvStep.carried.injEq] at h
              rw [← h.1, origins_cons, origins_cons, ihc a b hadv, horig]
            | nil =>
              rw [horig] at h
              cases h

/-! ## The claims -/

/-- C1: for every finite list of input sequences, repeatedly calling `next`
yields exactly the tuples of the reference nested-loop cartesian product
(one element per input, in input order, last input fastest-varying) and then
nothing: after enough calls to produce every tuple, one further call returns
no item and the iterator has ended. -/
theorem multi_product_enumerates_cartesian (ls : List (List α)) :
    MultiProduct.run ((cartesian ls).length + 1) (multi_cartesian_product ls) =
      some (cartesian ls, none) := by
  rcases run_ok ((cartesian ls).length + 1)
      (Or.inr (Or.inl ⟨rfl, rfl⟩) :
        OKState ls (multi_cartesian_product ls) (cartesian ls)) with
    ⟨s2, hrun, hok2, hend⟩
  rw [List.take_of_length_le (Nat.le_succ _), hend (Nat.lt_succ_self _)] at hrun
  exact hrun

/-- C2: after any number of `next` calls, `count` returns exactly the number
of outputs not produced yet; the total output count is the length of the
reference product, which is the product of the input lengths (`1` for zero
inputs, `0` if any input is empty). -/
theorem multi_product_count_exact (ls : List (List α)) (k : Nat)
    (outs : List (List α)) (s : MultiProduct α)
    (h : MultiProduct.run k (multi_cartesian_product ls) = some (outs, s)) :
    MultiProduct.count s = (cartesian ls).length - outs.length ∧
      (cartesian ls).length = (ls.map List.length).prod := by
  rcases run_ok k
      (Or.inr (Or.inl ⟨rfl, rfl⟩) :
        OKState ls (multi_cartesian_product ls) (cartesian ls)) with
    ⟨s2, hrun, hok2, hend⟩
  rw [h] at hrun
  simp only [Option.some.injEq, Prod.mk.injEq] at hrun
  obtain ⟨rfl, rfl⟩ := hrun
  refine ⟨?_, cartesian_length ls⟩
  rcases hok2 with ⟨rfl, hrem⟩ | ⟨heq, hrem⟩ | ⟨iters, vs, rfl, hne, hinv, horig, hrem⟩
  · have hle := List.drop_eq_nil_iff.mp hrem
    simp only [MultiProduct.count, List.length_take]
    omega
  · subst heq
    rw [count_fresh, List.length_take]
    have hlen := congrArg List.length hrem
    rw [List.length_drop] at hlen
    omega
  · rw [count_started hinv, ← hrem, List.length_drop, List.length_take]
    omega

/-- C3: `last` returns the final tuple of the full enumeration whenever at
least one output beyond the already-produced ones remains; it returns
nothing when the iterator has already ended and also when the most recently
produced tuple was the final one. -/
theorem multi_product_last_correct (ls : List (List α)) (k : Nat)
    (outs : List (List α)) (s : MultiProduct α)
    (h : MultiProduct.run k (multi_cartesian_product ls) = some (outs, s)) :
    MultiProduct.last s =
      if outs.length < (cartesian ls).length then (cartesian ls).getLast?
      else none := by
  rcases run_ok k
      (Or.inr (Or.inl ⟨rfl, rfl⟩) :
        OKState ls (multi_cartesian_product ls) (cartesian ls)) with
    ⟨s2, hrun, hok2, hend⟩
  rw [h] at hrun
  simp only [Option.some.injEq, Prod.mk.injEq] at hrun
  obtain ⟨rfl, rfl⟩ := hrun
  rcases hok2 with ⟨rfl, hrem⟩ | ⟨heq, hrem⟩ | ⟨iters, vs, rfl, hne, hinv, horig, hrem⟩
  · have hle := List.drop_eq_nil_iff.mp hrem
    rw [if_neg (by rw [List.length_take]; omega)]
    rfl
  · subst heq
    rw [last_fresh]
    have hlen := congrArg List.length hrem
    rw [List.length_drop] at hlen
    by_cases hzero : (cartesian ls).length = 0
    · have hnil : cartesian ls = [] := List.length_eq_zero.mp hzero
      rw [if_neg (by rw [List.length_take]; omega), hnil]
      rfl
    · have hk : k = 0 := by omega
      subst hk
      rw [if_pos (by rw [List.length_take]; omega)]
  · obtain ⟨hlastnil, hlastsome⟩ := last_started hinv
    have hlen := congrArg List.length hrem
    rw [List.length_drop] at hlen
    by_cases hrem0 : remAfter iters vs = []
    · rw [hlastnil hrem0]
      have hle := List.drop_eq_nil_iff.mp (hrem.trans hrem0)
      rw [if_neg (by rw [List.length_take]; omega)]
    · rw [hlastsome hrem0, horig]
      have hklt : k < (cartesian ls).length := by
        by_contra hk
        exact hrem0 (hrem.symm.trans (List.drop_eq_nil_iff.mpr (by omega)))
      rw [if_pos (by rw [List.length_take]; omega)]

/-- C4: whenever a `next` call returns no item, the successor state is the
ended state; from the ended state `next` again returns no item with the
ended state, so every subsequent call (at least two shown) also returns
nothing. -/
theorem multi_product_fused (s s2 : MultiProduct α)
    (h : MultiProduct.next s = some (none, s2)) :
    s2 = none ∧ MultiProduct.next s2 = some (none, none) ∧
      MultiProduct.next (none : MultiProduct α) = some (none, none) := by
  have hs2 : s2 = none := by
    cases s with
    | none =>
      simp only [MultiProduct.next, Option.some.injEq, Prod.mk.injEq] at h
      exact h.2.symm
    | some inner =>
      obtain ⟨iters, cur⟩ := inner
      cases cur with
      | some values =>
        simp only [MultiProduct.next] at h
        cases hadv : advance iters values with
        | found its2 vs2 =>
          rw [hadv] at h
          simp at h
        | carried a b =>
          rw [hadv] at h
          simp only [Option.some.injEq, Prod.mk.injEq] at h
          exact h.2.symm
        | panicked =>
          rw [hadv] at h
          cases h
      | none =>
        simp only [MultiProduct.next] at h
        cases hcoll : collectOpt (iters.map fun i => i.iter.head?) with
        | none =>
          rw [hcoll] at h
          simp only [Option.some.injEq, Prod.mk.injEq] at h
          exact h.2.symm
        | some vals =>
          rw [hcoll] at h
          by_cases hemp : iters.isEmpty
          · simp [hemp] at h
          · simp [hemp] at h
  subst hs2
  exact ⟨rfl, rfl, rfl⟩

/-- C5: with zero input sequences, the first `next` call produces exactly
the empty tuple and ends the iterator, and from the ended state every later
call returns nothing. -/
theorem multi_product_zero_inputs :
    MultiProduct.next (multi_cartesian_product ([] : List (List α))) =
      some (some [], none) ∧
    MultiProduct.next (none : MultiProduct α) = some (none, none) :=
  ⟨rfl, rfl⟩

/-- C6: if some input sequence is empty, the first `next` call returns
nothing and ends the iterator, `count` returns `0`, and `last` returns
nothing. -/
theorem multi_product_empty_input (ls : List (List α)) (h : [] ∈ ls) :
    MultiProduct.next (multi_cartesian_product ls) = some (none, none) ∧
    MultiProduct.count (multi_cartesian_product ls) = 0 ∧
    MultiProduct.last (multi_cartesian_product ls) = none := by
  have hnil : cartesian ls = [] := (cartesian_eq_nil_iff ls).mpr h
  refine ⟨?_, ?_, ?_⟩
  · rcases next_ok
        (Or.inr (Or.inl ⟨rfl, rfl⟩) :
          OKState ls (multi_cartesian_product ls) (cartesian ls)) with
      ⟨-, hnext⟩ | ⟨w, ws, s2, hrem, -, -⟩
    · exact hnext
    · rw [hnil] at hrem
      cases hrem
  · rw [count_fresh, hnil]
    rfl
  · rw [last_fresh, hnil]
    rfl

/-- C7: if each input iterator's size hint brackets its true remaining
length, then in every reachable state `size_hint` returns a pair whose lower
bound is at most, and whose upper bound (when present) is at least, the true
number of remaining outputs; on the ended state it returns `(0, some 0)`. -/
theorem multi_product_size_hint_brackets (hint : List α → Nat × Option Nat)
    (hh : HintOK hint) (ls : List (List α)) (k : Nat)
    (outs : List (List α)) (s : MultiProduct α)
    (h : MultiProduct.run k (multi_cartesian_product ls) = some (outs, s)) :
    (∃ r, MultiProduct.sizeHint hint s = some r ∧
      Brackets r ((cartesian ls).length - outs.length)) ∧
    MultiProduct.sizeHint hint (none : MultiProduct α) = some (0, some 0) := by
  refine ⟨?_, rfl⟩
  rcases run_ok k
      (Or.inr (Or.inl ⟨rfl, rfl⟩) :
        OKState ls (multi_cartesian_product ls) (cartesian ls)) with
    ⟨s2, hrun, hok2, hend⟩
  rw [h] at hrun
  simp only [Option.some.injEq, Prod.mk.injEq] at hrun
  obtain ⟨rfl, rfl⟩ := hrun
  rcases hok2 with ⟨rfl, hrem⟩ | ⟨heq, hrem⟩ | ⟨iters, vs, rfl, hne, hinv, horig, hrem⟩
  · have hle := List.drop_eq_nil_iff.mp hrem
    refine ⟨(0, some 0), rfl, Nat.zero_le _, ?_⟩
    intro u hu
    cases hu
    rw [List.length_take]
    omega
  · subst heq
    rcases sizeHint_fresh hint hh ls with ⟨r, hr, hbr⟩
    refine ⟨r, hr, ?_⟩
    have hlen := congrArg List.length hrem
    rw [List.length_drop] at hlen
    have heq2 : (cartesian ls).length - ((cartesian ls).take k).length =
        (cartesian ls).length := by
      rw [List.length_take]
      omega
    rw [heq2]
    exact hbr
  · rcases sizeHint_started hint hh hinv hne with ⟨r, hr, hbr⟩
    refine ⟨r, hr, ?_⟩
    have hlen := congrArg List.length hrem
    rw [List.length_drop] at hlen
    have heq2 : (cartesian ls).length - ((cartesian ls).take k).length =
        (remAfter iters vs).length := by
      rw [List.length_take]
      omega
    rw [heq2]
    exact hbr

/-- C8: in every reachable state, `next` does not panic (the `unwrap` in the
carry case always succeeds), `size_hint` never hits its `unreachable!`
branch, and whenever `cur` is populated there is at least one slot and every
slot's origin iterator is non-empty. -/
theorem multi_product_no_panic (ls : List (List α)) (k : Nat)
    (outs : List (List α)) (s : MultiProduct α)
    (h : MultiProduct.run k (multi_cartesian_product ls) = some (outs, s)) :
    (∃ r, MultiProduct.next s = some r) ∧
    (∀ hint : List α → Nat × Option Nat, ∃ r, MultiProduct.sizeHint hint s = some r) ∧
    (∀ iters vs, s = some (⟨iters, some vs⟩ : MultiProductInner α) →
      iters ≠ [] ∧ ∀ it ∈ iters, it.iter_orig ≠ []) := by
  rcases run_ok k
      (Or.inr (Or.inl ⟨rfl, rfl⟩) :
        OKState ls (multi_cartesian_product ls) (cartesian ls)) with
    ⟨s2, hrun, hok2, hend⟩
  rw [h] at hrun
  simp only [Option.some.injEq, Prod.mk.injEq] at hrun
  obtain ⟨rfl, rfl⟩ := hrun
  refine ⟨?_, ?_, ?_⟩
  · rcases next_ok hok2 with ⟨-, hnext⟩ | ⟨w, ws, s3, -, hnext, -⟩
    · exact ⟨_, hnext⟩
    · exact ⟨_, hnext⟩
  · intro hint
    rcases hok2 with ⟨rfl, -⟩ | ⟨heq, -⟩ | ⟨iters, vs, rfl, hne, hinv, -, -⟩
    · exact ⟨_, rfl⟩
    · subst heq
      exact ⟨_, rfl⟩
    · cases iters with
      | nil => exact absurd rfl hne
      | cons a b => exact ⟨_, rfl⟩
  · intro iters vs hs
    rcases hok2 with ⟨rfl, -⟩ | ⟨heq, -⟩ | ⟨iters2, vs2, heq2, hne, hinv, -, -⟩
    · cases hs
    · rw [heq] at hs
      simp only [multi_cartesian_product, Option.some.injEq,
        MultiProductInner.mk.injEq] at hs
      exact absurd hs.2 (by simp)
    · rw [heq2] at hs
      simp only [Option.some.injEq, MultiProductInner.mk.injEq] at hs
      obtain ⟨h1, h2⟩ := hs
      subst h1
      refine ⟨hne, ?_⟩
      intro it hit
      rcases forall₂_mem_left hinv hit with ⟨v2, pre, hpre⟩
      rw [hpre]
      simp

/-- C9: a `next` call that leaves the iterator alive never changes any
slot's `iter_orig`: origins are only ever cloned into the live iterator,
never advanced or replaced. -/
theorem multi_product_origin_frame (inner inner2 : MultiProductInner α)
    (o : Option (List α))
    (h : MultiProduct.next (some inner) = some (o, some inner2)) :
    inner2.iters.map MultiProductIter.iter_orig =
      inner.iters.map MultiProductIter.iter_orig := by
  obtain ⟨iters, cur⟩ := inner
  cases cur with
  | some values =>
    simp only [MultiProduct.next] at h
    cases hadv : advance iters values with
    | found its2 vs2 =>
      rw [hadv] at h
      simp only [Option.some.injEq, Prod.mk.injEq] at h
      obtain ⟨-, h2⟩ := h
      rw [← h2]
      exact (advance_origins iters values).1 its2 vs2 hadv
    | carried a b =>
      rw [hadv] at h
      simp at h
    | panicked =>
      rw [hadv] at h
      cases h
  | none =>
    simp only [MultiProduct.next] at h
    cases hcoll : collectOpt (iters.map fun i => i.iter.head?) with
    | none =>
      rw [hcoll] at h
      simp at h
    | some vals =>
      rw [hcoll] at h
      by_cases hemp : iters.isEmpty
      · simp [hemp] at h
      · simp only [hemp, if_false, Bool.false_eq_true, Option.some.injEq,
          Prod.mk.injEq] at h
        obtain ⟨-, h2⟩ := h
        rw [← h2]
        simp [List.map_map, Function.comp_def]

/-- C10: the slot count is the number of inputs in every reachable state,
and whenever `cur` is populated it holds exactly one element per slot. -/
theorem multi_product_slot_alignment (ls : List (List α)) (k : Nat)
    (outs : List (List α)) (iters : List (MultiProductIter α))
    (cur : Option (List α))
    (h : MultiProduct.run k (multi_cartesian_product ls) =
      some (outs, some (⟨iters, cur⟩ : MultiProductInner α))) :
    iters.length = ls.length ∧ ∀ vs, cur = some vs → vs.length = iters.length := by
  rcases run_ok k
      (Or.inr (Or.inl ⟨rfl, rfl⟩) :
        OKState ls (multi_cartesian_product ls) (cartesian ls)) with
    ⟨s2, hrun, hok2, hend⟩
  rw [h] at hrun
  simp only [Option.some.injEq, Prod.mk.injEq] at hrun
  obtain ⟨-, h2⟩ := hrun
  rw [← h2] at hok2
  rcases hok2 with ⟨hnone, -⟩ | ⟨heq, -⟩ | ⟨iters2, vs2, heq, hne, hinv, horig, -⟩
  · cases hnone
  · simp only [multi_cartesian_product, Option.some.injEq,
      MultiProductInner.mk.injEq] at heq
    obtain ⟨h1, hcur⟩ := heq
    constructor
    · rw [h1, List.length_map]
    · intro vs hvs
      rw [hcur] at hvs
      cases hvs
  · simp only [Option.some.injEq, MultiProductInner.mk.injEq] at heq
    obtain ⟨h1, h2c⟩ := heq
    have hlslen : iters2.length = ls.length := by
      have hc := congrArg List.length horig
      rwa [origins, List.length_map] at hc
    constructor
    · rw [h1, hlslen]
    · intro vs hvs
      rw [h2c] at hvs
      simp only [Option.some.injEq] at hvs
      rw [← hvs, h1]
      exact hinv.length_eq.symm

/-! ## Concrete instantiations of the claims with hypotheses -/

theorem multi_product_count_exact_witness :
    MultiProduct.count
        (some (⟨[⟨[2], [1, 2]⟩, ⟨[], [3]⟩], some [1, 3]⟩ : MultiProductInner Nat)) =
      (cartesian [[1, 2], [3]]).length - [[1, 3]].length ∧
    (cartesian [[1, 2], [3]]).length = ([[1, 2], [3]].map List.length).prod :=
  multi_product_count_exact [[1, 2], [3]] 1 [[1, 3]]
    (some ⟨[⟨[2], [1, 2]⟩, ⟨[], [3]⟩], some [1, 3]⟩) (by decide)

theorem multi_product_last_correct_witness :
    MultiProduct.last
        (some (⟨[⟨[2], [1, 2]⟩, ⟨[], [3]⟩], some [1, 3]⟩ : MultiProductInner Nat)) =
      if [[1, 3]].length < (cartesian [[1, 2], [3]]).length then
        (cartesian [[1, 2], [3]]).getLast?
      else none :=
  multi_product_last_correct [[1, 2], [3]] 1 [[1, 3]]
    (some ⟨[⟨[2], [1, 2]⟩, ⟨[], [3]⟩], some [1, 3]⟩) (by decide)

theorem multi_product_fused_witness :
    (none : MultiProduct Nat) = none ∧
    MultiProduct.next (none : MultiProduct Nat) = some (none, none) ∧
    MultiProduct.next (none : MultiProduct Nat) = some (none, none) :=
  multi_product_fused (some ⟨[⟨[], [1]⟩], some [1]⟩) none (by decide)

theorem multi_product_empty_input_witness :
    MultiProduct.next (multi_cartesian_product [[1], ([] : List Nat)]) =
      some (none, none) ∧
    MultiProduct.count (multi_cartesian_product [[1], ([] : List Nat)]) = 0 ∧
    MultiProduct.last (multi_cartesian_product [[1], ([] : List Nat)]) = none :=
  multi_product_empty_input [[1], []] (by decide)

theorem multi_product_size_hint_brackets_witness :
    (∃ r, MultiProduct.sizeHint (fun l => (l.length, some l.length))
        (some (⟨[⟨[2], [1, 2]⟩, ⟨[], [3]⟩], some [1, 3]⟩ : MultiProductInner Nat)) =
          some r ∧
      Brackets r ((cartesian [[1, 2], [3]]).length - [[1, 3]].length)) ∧
    MultiProduct.sizeHint (fun l => (l.length, some l.length))
        (none : MultiProduct Nat) = some (0, some 0) :=
  multi_product_size_hint_brackets (fun l => (l.length, some l.length))
    (fun l => ⟨Nat.le_refl _, fun u hu => by cases hu; exact Nat.le_refl _⟩)
    [[1, 2], [3]] 1 [[1, 3]]
    (some ⟨[⟨[2], [1, 2]⟩, ⟨[], [3]⟩], some [1, 3]⟩) (by decide)

theorem multi_product_no_panic_witness :
    (∃ r, MultiProduct.next
        (some (⟨[⟨[2], [1, 2]⟩, ⟨[], [3]⟩], some [1, 3]⟩ : MultiProductInner Nat)) =
      some r) ∧
    (∀ hint : List Nat → Nat × Option Nat, ∃ r,
      MultiProduct.sizeHint hint
        (some (⟨[⟨[2], [1, 2]⟩, ⟨[], [3]⟩], some [1, 3]⟩ : MultiProductInner Nat)) =
      some r) ∧
    (∀ iters vs,
      (some (⟨[⟨[2], [1, 2]⟩, ⟨[], [3]⟩], some [1, 3]⟩ : MultiProductInner Nat) :
          MultiProduct Nat) = some (⟨iters, some vs⟩ : MultiProductInner Nat) →
      iters ≠ [] ∧ ∀ it ∈ iters, it.iter_orig ≠ []) :=
  multi_product_no_panic [[1, 2], [3]] 1 [[1, 3]]
    (some ⟨[⟨[2], [1, 2]⟩, ⟨[], [3]⟩], some [1, 3]⟩) (by decide)

theorem multi_product_origin_frame_witness :
    (⟨[⟨[2], [1, 2]⟩], some [1]⟩ : MultiProductInner Nat).iters.map
        MultiProductIter.iter_orig =
      (⟨[⟨[1, 2], [1, 2]⟩], none⟩ : MultiProductInner Nat).iters.map
        MultiProductIter.iter_orig :=
  multi_product_origin_frame ⟨[⟨[1, 2], [1, 2]⟩], none⟩ ⟨[⟨[2], [1, 2]⟩], some [1]⟩
    (some [1]) (by decide)

theorem multi_product_slot_alignment_witness :
    ([⟨[2], [1, 2]⟩, ⟨[], [3]⟩] : List (MultiProductIter Nat)).length =
      [[1, 2], [3]].length ∧
    ∀ vs, (some [1, 3] : Option (List Nat)) = some vs →
      vs.length = ([⟨[2], [1, 2]⟩, ⟨[], [3]⟩] : List (MultiProductIter Nat)).length :=
  multi_product_slot_alignment [[1, 2], [3]] 1 [[1, 3]] [⟨[2], [1, 2]⟩, ⟨[], [3]⟩]
    (some [1, 3]) (by decide)
